import Mathlib

/-!
Shallow embedding of the core of `src/main.go` (gcp-sa-lookup): the Record
Store, the reconciliation loop of `concurrentProjectProcessing`, the post-run
deletion-marking pass of `main`, the CSV loaders, and the analysis-mode bulk
subject-id lookup.  The Go map `map[string]ServiceAccount` is modelled as an
association list with replace-on-insert semantics; Go map extensional content
is observed through `findKey`.  Concurrency is modelled by quantifying over
the arrival order of per-project outcomes (any permutation of the dispatched
projects' results), and intra-task statement order is modelled by explicit
event traces.
-/

/-- Mirrors Go `type ServiceAccount struct` (src/main.go lines 20-25). -/
structure ServiceAccount where
  ProjectID : String
  Email : String
  UniqueId : String
  Status : String
deriving DecidableEq, Repr

/-- Mirrors Go `type Project struct` (src/main.go lines 15-18). -/
structure Project where
  ProjectId : String
  Name : String
deriving DecidableEq, Repr

/-- Mirrors Go `type ProjectAccess struct` (src/main.go lines 33-36). -/
structure ProjectAccess where
  ProjectID : String
  HasAccess : String
deriving DecidableEq, Repr

/-- Mirrors Go `type projectResult struct` (src/main.go lines 38-42); the Go
`error` field is `Option String` (`none` = nil error). -/
structure projectResult where
  Proj : Project
  ServiceAccounts : List ServiceAccount
  Error : Option String
deriving DecidableEq, Repr

/-- The Go map `map[string]ServiceAccount`, modelled extensionally as an
association list (first binding wins on lookup; insert replaces in place). -/
abbrev Store := List (String × ServiceAccount)

/-- Go map read `m[key]` returning the value and presence bit. -/
def findKey : Store → String → Option ServiceAccount
  | [], _ => none
  | (k2, v) :: rest, k => if k2 = k then some v else findKey rest k

/-- Go map write `m[key] = v`: replace the binding in place when the key is
present, append a fresh binding otherwise. -/
def insertKey : Store → String → ServiceAccount → Store
  | [], k, v => [(k, v)]
  | (k2, v2) :: rest, k, v =>
    if k2 = k then (k, v) :: rest else (k2, v2) :: insertKey rest k v

/-- The representation invariant of a Go map image: no key is bound twice. -/
def NodupKeys (st : Store) : Prop := (st.map Prod.fst).Nodup

instance (st : Store) : Decidable (NodupKeys st) := by
  unfold NodupKeys; infer_instance

/-- Number of bindings a key has in the store ("exactly one entry"). -/
def countKey (st : Store) (k : String) : Nat :=
  (st.filter (fun p => p.1 = k)).length

/-- The Record Store key `fmt.Sprintf("%s|%s|%s", p, e, s)` (src/main.go
lines 319 and 437). -/
def mkKey (p e s : String) : String := p ++ "|" ++ e ++ "|" ++ s

theorem findKey_insertKey (st : Store) (k k2 : String) (v : ServiceAccount) :
    findKey (insertKey st k v) k2 = if k = k2 then some v else findKey st k2 := by
  induction st with
  | nil =>
    by_cases h : k = k2 <;> simp [insertKey, findKey, h]
  | cons hd tl ih =>
    obtain ⟨k1, v1⟩ := hd
    by_cases h1 : k1 = k
    · subst h1
      by_cases h2 : k1 = k2 <;> simp [insertKey, findKey, h2]
    · by_cases h2 : k1 = k2
      · subst h2
        have : ¬ k = k1 := fun he => h1 he.symm
        simp [insertKey, findKey, h1, this]
      · simp [insertKey, findKey, h1, h2, ih]

theorem findKey_insertKey_self (st : Store) (k : String) (v : ServiceAccount) :
    findKey (insertKey st k v) k = some v := by
  simp [findKey_insertKey]

theorem findKey_insertKey_ne (st : Store) (k k2 : String) (v : ServiceAccount)
    (h : k ≠ k2) : findKey (insertKey st k v) k2 = findKey st k2 := by
  simp [findKey_insertKey, h]

theorem findKey_isSome_iff_mem (st : Store) (k : String) :
    (findKey st k).isSome ↔ k ∈ st.map Prod.fst := by
  induction st with
  | nil => simp [findKey]
  | cons hd tl ih =>
    obtain ⟨k1, v1⟩ := hd
    by_cases h1 : k1 = k
    · subst h1
      simp [findKey]
    · have : ¬ k = k1 := fun he => h1 he.symm
      simp [findKey, h1, this, ih]

theorem findKey_mem (st : Store) (k : String) (v : ServiceAccount)
    (h : findKey st k = some v) : (k, v) ∈ st := by
  induction st with
  | nil => simp [findKey] at h
  | cons hd tl ih =>
    obtain ⟨k1, v1⟩ := hd
    by_cases h1 : k1 = k
    · subst h1
      simp [findKey] at h
      simp [h]
    · simp only [findKey, if_neg h1] at h
      exact List.mem_cons_of_mem _ (ih h)

theorem findKey_of_mem_nodup (st : Store) (k : String) (v : ServiceAccount)
    (hnd : NodupKeys st) (h : (k, v) ∈ st) : findKey st k = some v := by
  induction st with
  | nil => simp at h
  | cons hd tl ih =>
    obtain ⟨k1, v1⟩ := hd
    unfold NodupKeys at hnd
    simp only [List.map_cons, List.nodup_cons] at hnd
    rcases List.mem_cons.mp h with heq | hmem
    · injection heq with hk hv
      subst hk
      subst hv
      simp [findKey]
    · have hk : ¬ k1 = k := by
        intro he
        subst he
        exact hnd.1 (List.mem_map_of_mem Prod.fst hmem)
      simp only [findKey, if_neg hk]
      exact ih hnd.2 hmem

theorem keys_insertKey (st : Store) (k : String) (v : ServiceAccount) :
    (insertKey st k v).map Prod.fst =
      if (findKey st k).isSome then st.map Prod.fst else st.map Prod.fst ++ [k] := by
  induction st with
  | nil => simp [insertKey, findKey]
  | cons hd tl ih =>
    obtain ⟨k1, v1⟩ := hd
    by_cases h1 : k1 = k
    · subst h1
      simp [insertKey, findKey]
    · by_cases hs : (findKey tl k).isSome <;>
        simp [insertKey, findKey, h1, hs, ih]

theorem nodupKeys_insertKey (st : Store) (k : String) (v : ServiceAccount)
    (h : NodupKeys st) : NodupKeys (insertKey st k v) := by
  unfold NodupKeys at *
  rw [keys_insertKey]
  by_cases hs : (findKey st k).isSome
  · simpa [hs] using h
  · have hk : k ∉ st.map Prod.fst := fun hm =>
      hs ((findKey_isSome_iff_mem st k).mpr hm)
    rw [if_neg hs, List.nodup_append]
    refine ⟨h, List.nodup_singleton k, ?_⟩
    intro a ha hmem
    have he : a = k := by simpa using hmem
    exact hk (he ▸ ha)

theorem countKey_nodup (st : Store) (k : String) (hnd : NodupKeys st) :
    countKey st k = if (findKey st k).isSome then 1 else 0 := by
  induction st with
  | nil => simp [countKey, findKey]
  | cons hd tl ih =>
    obtain ⟨k1, v1⟩ := hd
    unfold NodupKeys at hnd
    simp only [List.map_cons, List.nodup_cons] at hnd
    by_cases h1 : k1 = k
    · subst h1
      have hnone : findKey tl k1 = none := by
        cases hfk : findKey tl k1 with
        | none => rfl
        | some v2 =>
          exact absurd (List.mem_map_of_mem Prod.fst (findKey_mem tl k1 v2 hfk))
            hnd.1
      have := ih hnd.2
      simp [countKey, List.filter, findKey, hnone] at this ⊢
      simpa [countKey] using this
    · have := ih hnd.2
      simp [countKey, List.filter, findKey, h1] at this ⊢
      exact this

theorem insertKey_self_eq (st : Store) (k : String) (v : ServiceAccount)
    (h : findKey st k = some v) : insertKey st k v = st := by
  induction st with
  | nil => simp [findKey] at h
  | cons hd tl ih =>
    obtain ⟨k1, v1⟩ := hd
    by_cases h1 : k1 = k
    · subst h1
      simp [findKey] at h
      simp [insertKey, h]
    · simp only [findKey, if_neg h1] at h
      simp [insertKey, h1, ih h]

/-- Abstract Directory Client (`getServiceAccounts`, src/main.go lines
287-303): for a project id, either the parsed account list or a Go error. -/
abbrev DirectoryQuery := String → Except String (List ServiceAccount)

/-- Worker body (src/main.go lines 399-411): run the query for one project
and package the outcome; on error the account list is nil. -/
def runProject (query : DirectoryQuery) (p : Project) : projectResult :=
  match query p.ProjectId with
  | Except.ok accs => { Proj := p, ServiceAccounts := accs, Error := none }
  | Except.error e => { Proj := p, ServiceAccounts := [], Error := some e }

/-- State threaded through the consumer loop of `concurrentProjectProcessing`:
the shared `existingAccounts` map, the `accessStatuses` slice, and the
`processed` set (`map[string]bool`, modelled as a duplicate-free list). -/
structure RunState where
  store : Store
  statuses : List ProjectAccess
  processed : List String
deriving DecidableEq, Repr

/-- Go `processed[pid] = true` on a set modelled as a duplicate-free list. -/
def addProcessed (l : List String) (pid : String) : List String :=
  if pid ∈ l then l else l ++ [pid]

/-- The upsert loop of the success branch (src/main.go lines 436-439):
each returned account is written at key `mkKey pid email uniqueId` with
status forced to `"active"`. -/
def upsertAccounts (store : Store) (pid : String) (accs : List ServiceAccount) : Store :=
  accs.foldl
    (fun st a =>
      insertKey st (mkKey pid a.Email a.UniqueId)
        { ProjectID := pid, Email := a.Email, UniqueId := a.UniqueId, Status := "active" })
    store

/-- One iteration of the consumer loop (src/main.go lines 421-442): a failed
outcome appends `(pid, "no")`; a successful one appends `(pid, "yes")`,
records the project as processed, and upserts every returned account. -/
def processOutcome (s : RunState) (res : projectResult) : RunState :=
  match res.Error with
  | some _ =>
    { s with statuses := s.statuses ++ [{ ProjectID := res.Proj.ProjectId, HasAccess := "no" }] }
  | none =>
    { store := upsertAccounts s.store res.Proj.ProjectId res.ServiceAccounts
      statuses := s.statuses ++ [{ ProjectID := res.Proj.ProjectId, HasAccess := "yes" }]
      processed := addProcessed s.processed res.Proj.ProjectId }

/-- The whole consumer loop: outcomes are consumed one at a time in their
arrival order (the mutex serializes the per-outcome critical sections, so a
run is a fold over some arrival permutation of the outcomes). -/
def reconcile (outcomes : List projectResult) (s : RunState) : RunState :=
  outcomes.foldl processOutcome s

/-- One iteration of the post-run deletion-marking loop of `main`
(src/main.go lines 88-95), for the map binding `kv` delivered by `range`:
when the entry's project was processed, the code re-reads the very key it is
iterating on; only if that key were absent (never the case) would it write
the entry back with status `"deleted"`, and it then writes the entry back
unchanged. -/
def markDeletedStep (processed : List String) (st : Store) (kv : String × ServiceAccount) : Store :=
  if kv.2.ProjectID ∈ processed then
    if findKey st kv.1 = none then
      insertKey (insertKey st kv.1 { kv.2 with Status := "deleted" }) kv.1
        { kv.2 with Status := "deleted" }
    else
      insertKey st kv.1 kv.2
  else st

/-- The deletion-marking pass of `main` (src/main.go lines 87-96): a `range`
over the bindings of `existingAccounts`, mutating the same map. -/
def markDeletedPass (st : Store) (processed : List String) : Store :=
  List.foldl (markDeletedStep processed) st st

/-- The load-mode run from reconciliation through deletion-marking
(src/main.go lines 83-96), starting from the loaded store, an empty status
slice and an empty processed set. -/
def runPipeline (outcomes : List projectResult) (store0 : Store) : RunState :=
  let s := reconcile outcomes { store := store0, statuses := [], processed := [] }
  { s with store := markDeletedPass s.store s.processed }

theorem markDeletedStep_id (processed : List String) (st : Store)
    (kv : String × ServiceAccount) (h : findKey st kv.1 = some kv.2) :
    markDeletedStep processed st kv = st := by
  unfold markDeletedStep
  by_cases hp : kv.2.ProjectID ∈ processed
  · rw [if_pos hp, if_neg (by simp [h]), insertKey_self_eq st kv.1 kv.2 h]
  · rw [if_neg hp]

theorem foldl_markDeletedStep_id (processed : List String) (st : Store)
    (l : List (String × ServiceAccount))
    (hl : ∀ kv ∈ l, findKey st kv.1 = some kv.2) :
    List.foldl (markDeletedStep processed) st l = st := by
  induction l with
  | nil => rfl
  | cons hd tl ih =>
    rw [List.foldl_cons, markDeletedStep_id processed st hd (hl hd (List.mem_cons_self hd tl))]
    exact ih (fun kv hkv => hl kv (List.mem_cons_of_mem hd hkv))

/-- On a well-formed map the deletion-marking pass of `main` is the identity:
the guard `!exists` re-reads the key the loop itself delivered, so no entry
is ever marked `deleted`. -/
theorem markDeletedPass_id (st : Store) (processed : List String)
    (hnd : NodupKeys st) : markDeletedPass st processed = st :=
  foldl_markDeletedStep_id processed st st
    (fun kv hkv => findKey_of_mem_nodup st kv.1 kv.2 hnd (by simpa using hkv))

/-- The access-status record one outcome contributes (src/main.go lines
424-433). -/
def statusOf (res : projectResult) : ProjectAccess :=
  match res.Error with
  | some _ => { ProjectID := res.Proj.ProjectId, HasAccess := "no" }
  | none => { ProjectID := res.Proj.ProjectId, HasAccess := "yes" }

theorem processOutcome_statuses (s : RunState) (res : projectResult) :
    (processOutcome s res).statuses = s.statuses ++ [statusOf res] := by
  unfold processOutcome statusOf
  cases res.Error <;> rfl

theorem reconcile_statuses (outcomes : List projectResult) (s : RunState) :
    (reconcile outcomes s).statuses = s.statuses ++ outcomes.map statusOf := by
  induction outcomes generalizing s with
  | nil => simp [reconcile]
  | cons hd tl ih =>
    show (reconcile tl (processOutcome s hd)).statuses = _
    rw [ih, processOutcome_statuses]
    simp

/-- The (key, value) writes a single outcome performs on the Record Store,
in program order (success branch, src/main.go lines 436-439). -/
def outcomeWrites (res : projectResult) : List (String × ServiceAccount) :=
  match res.Error with
  | some _ => []
  | none =>
    res.ServiceAccounts.map (fun a =>
      (mkKey res.Proj.ProjectId a.Email a.UniqueId,
       { ProjectID := res.Proj.ProjectId, Email := a.Email, UniqueId := a.UniqueId,
         Status := "active" }))

/-- All Record Store writes of a run, in arrival order. -/
def runWrites (outcomes : List projectResult) : List (String × ServiceAccount) :=
  (outcomes.map outcomeWrites).flatten

/-- Replay a write list left to right on a store. -/
def applyWrites (st : Store) (l : List (String × ServiceAccount)) : Store :=
  l.foldl (fun st2 kv => insertKey st2 kv.1 kv.2) st

theorem applyWrites_append (st : Store) (l1 l2 : List (String × ServiceAccount)) :
    applyWrites st (l1 ++ l2) = applyWrites (applyWrites st l1) l2 := by
  unfold applyWrites
  rw [List.foldl_append]

theorem upsertAccounts_eq_applyWrites (st : Store) (pid : String)
    (accs : List ServiceAccount) :
    upsertAccounts st pid accs =
      applyWrites st (accs.map (fun a =>
        (mkKey pid a.Email a.UniqueId,
         ({ ProjectID := pid, Email := a.Email, UniqueId := a.UniqueId,
            Status := "active" } : ServiceAccount)))) := by
  unfold upsertAccounts applyWrites
  rw [List.foldl_map]

theorem processOutcome_store (s : RunState) (res : projectResult) :
    (processOutcome s res).store = applyWrites s.store (outcomeWrites res) := by
  unfold processOutcome outcomeWrites
  cases res.Error with
  | none => simpa using upsertAccounts_eq_applyWrites s.store res.Proj.ProjectId res.ServiceAccounts
  | some e => rfl

theorem reconcile_store (outcomes : List projectResult) (s : RunState) :
    (reconcile outcomes s).store = applyWrites s.store (runWrites outcomes) := by
  induction outcomes generalizing s with
  | nil => simp [reconcile, runWrites, applyWrites]
  | cons hd tl ih =>
    show (reconcile tl (processOutcome s hd)).store = _
    rw [ih, processOutcome_store]
    unfold runWrites
    rw [List.map_cons, List.flatten_cons, applyWrites_append]

theorem findKey_append (l1 l2 : Store) (k : String) :
    findKey (l1 ++ l2) k =
      match findKey l1 k with
      | some v => some v
      | none => findKey l2 k := by
  induction l1 with
  | nil => simp [findKey]
  | cons hd tl ih =>
    obtain ⟨k1, v1⟩ := hd
    by_cases h1 : k1 = k <;> simp [findKey, h1, ih]

/-- Last write to a key in a write list, if any. -/
def lookupLast (l : List (String × ServiceAccount)) (k : String) : Option ServiceAccount :=
  findKey l.reverse k

theorem findKey_applyWrites (l : List (String × ServiceAccount)) (st : Store) (k : String) :
    findKey (applyWrites st l) k =
      match lookupLast l k with
      | some v => some v
      | none => findKey st k := by
  induction l generalizing st with
  | nil => simp [applyWrites, lookupLast, findKey]
  | cons kv l ih =>
    show findKey (applyWrites (insertKey st kv.1 kv.2) l) k = _
    rw [ih]
    unfold lookupLast
    rw [List.reverse_cons, findKey_append]
    cases hfk : findKey l.reverse k with
    | some v => rfl
    | none =>
      rw [findKey_insertKey]
      by_cases h1 : kv.1 = k <;> simp [findKey, h1]

theorem lookupLast_mem (l : List (String × ServiceAccount)) (k : String)
    (v : ServiceAccount) (h : lookupLast l k = some v) : (k, v) ∈ l := by
  have := findKey_mem l.reverse k v h
  exact List.mem_reverse.mp this

theorem lookupLast_isSome_of_mem (l : List (String × ServiceAccount)) (k : String)
    (v : ServiceAccount) (h : (k, v) ∈ l) : (lookupLast l k).isSome := by
  unfold lookupLast
  rw [findKey_isSome_iff_mem]
  exact List.mem_map_of_mem Prod.fst (List.mem_reverse.mpr h)

theorem nodupKeys_applyWrites (st : Store) (l : List (String × ServiceAccount))
    (h : NodupKeys st) : NodupKeys (applyWrites st l) := by
  induction l generalizing st with
  | nil => exact h
  | cons kv l ih =>
    exact ih (insertKey st kv.1 kv.2) (nodupKeys_insertKey st kv.1 kv.2 h)

theorem nodupKeys_reconcile (outcomes : List projectResult) (s : RunState)
    (h : NodupKeys s.store) : NodupKeys (reconcile outcomes s).store := by
  rw [reconcile_store]
  exact nodupKeys_applyWrites s.store (runWrites outcomes) h

theorem runPipeline_statuses (outcomes : List projectResult) (store0 : Store) :
    (runPipeline outcomes store0).statuses = outcomes.map statusOf := by
  unfold runPipeline
  simp [reconcile_statuses]

theorem runProject_Proj (query : DirectoryQuery) (p : Project) :
    (runProject query p).Proj = p := by
  unfold runProject
  cases query p.ProjectId <;> rfl

/-- The summary string the reconciler records for a query result. -/
def hasAccessString (r : Except String (List ServiceAccount)) : String :=
  match r with
  | Except.ok _ => "yes"
  | Except.error _ => "no"

theorem statusOf_ProjectID (res : projectResult) :
    (statusOf res).ProjectID = res.Proj.ProjectId := by
  unfold statusOf
  cases res.Error <;> rfl

theorem statusOf_runProject (query : DirectoryQuery) (p : Project) :
    statusOf (runProject query p) =
      { ProjectID := p.ProjectId, HasAccess := hasAccessString (query p.ProjectId) } := by
  unfold statusOf runProject hasAccessString
  cases query p.ProjectId <;> rfl

/-- Directory Client of the concrete deletion-marking scenario: project `p1`
succeeds and returns only the account `(e1, s1)`. -/
def queryScenario : DirectoryQuery := fun pid =>
  if pid = "p1" then
    Except.ok [{ ProjectID := "", Email := "e1", UniqueId := "s1", Status := "" }]
  else Except.error "no access"

/-- Loaded store of the concrete deletion-marking scenario: two `active`
entries for project `p1`. -/
def storeScenario : Store :=
  [(mkKey "p1" "e1" "s1",
    { ProjectID := "p1", Email := "e1", UniqueId := "s1", Status := "active" }),
   (mkKey "p1" "e2" "s2",
    { ProjectID := "p1", Email := "e2", UniqueId := "s2", Status := "active" })]

/-- The full run of the concrete deletion-marking scenario. -/
def runScenario : RunState :=
  runPipeline [runProject queryScenario { ProjectId := "p1", Name := "P1" }] storeScenario

/-- C1: the claim (and the comment at src/main.go line 87) says the stale
entry `(p1, e2, s2)` is marked `deleted` after a successful run for `p1`
that no longer returns it.  The code disagrees: the deletion-marking pass at
lines 88-96 re-reads the very key `range` just delivered, so its `!exists`
guard is always false and **no** entry is ever marked `deleted` — at the
claim's own input the stale entry keeps status `active`, and indeed no entry
of the final store has status `deleted`. -/
theorem deletion_marking_is_dead_code :
    findKey runScenario.store (mkKey "p1" "e2" "s2") =
      some { ProjectID := "p1", Email := "e2", UniqueId := "s2", Status := "active" } ∧
    findKey runScenario.store (mkKey "p1" "e1" "s1") =
      some { ProjectID := "p1", Email := "e1", UniqueId := "s1", Status := "active" } ∧
    runScenario.statuses = [{ ProjectID := "p1", HasAccess := "yes" }] ∧
    runScenario.processed = ["p1"] ∧
    (∀ kv ∈ runScenario.store, kv.2.Status ≠ "deleted") := by
  decide

/-- C10: the Record Store key is the concatenation `p ++ "|" ++ e ++ "|" ++ s`
(src/main.go lines 319 and 437).  The encoding is not injective: the distinct
identity triples `("a|b","c","d")` and `("a","b|c","d")` share the key
`"a|b|c|d"`, and an upsert for the second triple overwrites the stored entry
of the first. -/
theorem key_encoding_not_injective :
    mkKey "a|b" "c" "d" = mkKey "a" "b|c" "d" ∧
    (("a|b", "c", "d") : String × String × String) ≠ ("a", "b|c", "d") ∧
    findKey
      (upsertAccounts
        [(mkKey "a|b" "c" "d",
          { ProjectID := "a|b", Email := "c", UniqueId := "d", Status := "active" })]
        "a" [{ ProjectID := "", Email := "b|c", UniqueId := "d", Status := "" }])
      (mkKey "a|b" "c" "d") =
      some { ProjectID := "a", Email := "b|c", UniqueId := "d", Status := "active" } := by
  decide

/-- C2: every dispatched project contributes exactly one Access Status
Record, whatever order the outcomes arrive in: the multiset of recorded
project ids equals the multiset of dispatched project ids (no loss, no
duplication), and each record says `"yes"` exactly when that project's query
succeeded and `"no"` when it failed. -/
theorem one_status_record_per_project
    (projects : List Project) (query : DirectoryQuery)
    (outcomes : List projectResult) (store0 : Store)
    (horder : outcomes.Perm (projects.map (runProject query))) :
    ((runPipeline outcomes store0).statuses.map (fun r => r.ProjectID)).Perm
        (projects.map (fun p => p.ProjectId)) ∧
    ∀ r ∈ (runPipeline outcomes store0).statuses,
      r.HasAccess = hasAccessString (query r.ProjectID) := by
  constructor
  · have hmap := horder.map (fun res => (statusOf res).ProjectID)
    rw [List.map_map] at hmap
    have hcomp : ((fun res => (statusOf res).ProjectID) ∘ runProject query) =
        fun p => p.ProjectId := by
      funext p
      simp [statusOf_ProjectID, runProject_Proj]
    rw [hcomp] at hmap
    rw [runPipeline_statuses, List.map_map]
    exact hmap
  · intro r hr
    rw [runPipeline_statuses] at hr
    obtain ⟨res, hres, hreq⟩ := List.mem_map.mp hr
    have hres2 : res ∈ projects.map (runProject query) := horder.mem_iff.mp hres
    obtain ⟨p, hp, hpe⟩ := List.mem_map.mp hres2
    subst hpe
    subst hreq
    rw [statusOf_runProject]

/-- Dispatched projects of the witness run. -/
def projectsW : List Project :=
  [{ ProjectId := "p1", Name := "P1" }, { ProjectId := "p2", Name := "P2" }]

/-- Directory Client of the witness run: `p1` succeeds, `p2` fails. -/
def queryW : DirectoryQuery := fun pid =>
  if pid = "p1" then Except.ok [] else Except.error "denied"

/-- Witness arrival order: the outcomes arrive in reversed dispatch order. -/
def outcomesW : List projectResult := (projectsW.map (runProject queryW)).reverse

theorem one_status_record_per_project_witness :
    outcomesW.Perm (projectsW.map (runProject queryW)) ∧
    ((runPipeline outcomesW []).statuses.map (fun r => r.ProjectID)).Perm
        (projectsW.map (fun p => p.ProjectId)) ∧
    ∀ r ∈ (runPipeline outcomesW []).statuses,
      r.HasAccess = hasAccessString (queryW r.ProjectID) :=
  ⟨List.reverse_perm _,
   (one_status_record_per_project projectsW queryW outcomesW [] (List.reverse_perm _)).1,
   (one_status_record_per_project projectsW queryW outcomesW [] (List.reverse_perm _)).2⟩

theorem runWrites_cons (res : projectResult) (l : List projectResult) :
    runWrites (res :: l) = outcomeWrites res ++ runWrites l := by
  unfold runWrites
  rw [List.map_cons, List.flatten_cons]

theorem runWrites_perm {o1 o2 : List projectResult} (h : o1.Perm o2) :
    (runWrites o1).Perm (runWrites o2) := by
  induction h with
  | nil => exact List.Perm.refl _
  | cons x _ ih =>
    rw [runWrites_cons, runWrites_cons]
    exact ih.append_left (outcomeWrites x)
  | swap x y l =>
    rw [runWrites_cons, runWrites_cons, runWrites_cons, runWrites_cons,
      ← List.append_assoc, ← List.append_assoc]
    exact (List.perm_append_comm).append_right (runWrites l)
  | trans _ _ ih1 ih2 => exact ih1.trans ih2

/-- On a store satisfying the map invariant, the whole load-mode run acts on
the Record Store as the replay of its write list: the deletion-marking pass
contributes nothing. -/
theorem runPipeline_store (outcomes : List projectResult) (store0 : Store)
    (hnd : NodupKeys store0) :
    (runPipeline outcomes store0).store = applyWrites store0 (runWrites outcomes) := by
  unfold runPipeline
  simp only
  rw [reconcile_store, markDeletedPass_id _ _ (nodupKeys_applyWrites _ _ hnd)]

theorem outcomeWrites_active (res : projectResult) (kv : String × ServiceAccount)
    (h : kv ∈ outcomeWrites res) : kv.2.Status = "active" := by
  obtain ⟨proj, accs, err⟩ := res
  cases err with
  | some e => simp [outcomeWrites] at h
  | none =>
    simp only [outcomeWrites] at h
    obtain ⟨a, _, hkv⟩ := List.mem_map.mp h
    rw [← hkv]

theorem runWrites_active (outcomes : List projectResult) (kv : String × ServiceAccount)
    (h : kv ∈ runWrites outcomes) : kv.2.Status = "active" := by
  unfold runWrites at h
  obtain ⟨l, hl, hkv⟩ := List.mem_flatten.mp h
  obtain ⟨res, _, hres⟩ := List.mem_map.mp hl
  exact outcomeWrites_active res kv (hres ▸ hkv)

theorem lookupLast_eq_none_iff (l : List (String × ServiceAccount)) (k : String) :
    lookupLast l k = none ↔ k ∉ l.map Prod.fst := by
  rw [← Option.not_isSome_iff_eq_none]
  unfold lookupLast
  rw [findKey_isSome_iff_mem]
  constructor
  · intro h hm
    exact h (by rw [List.map_reverse]; exact List.mem_reverse.mpr hm)
  · intro h hm
    exact h (by rw [List.map_reverse] at hm; exact List.mem_reverse.mp hm)

/-- Directory Client of the collision counterexamples: project `a|b` fails,
project `a` succeeds and returns an account whose email contains a pipe. -/
def queryCollide : DirectoryQuery := fun pid =>
  if pid = "a" then
    Except.ok [{ ProjectID := "", Email := "b|c", UniqueId := "d", Status := "" }]
  else Except.error "denied"

/-- Loaded store of the collision counterexample: one `active` entry that
belongs to project `a|b`. -/
def storeCollide : Store :=
  [(mkKey "a|b" "c" "d",
    { ProjectID := "a|b", Email := "c", UniqueId := "d", Status := "active" })]

/-- A run over the collision store: `a|b` fails first, then `a` succeeds. -/
def outcomesCollide : List projectResult :=
  [runProject queryCollide { ProjectId := "a|b", Name := "AB" },
   runProject queryCollide { ProjectId := "a", Name := "A" }]

/-- C3 counterexample: project `a|b` fails this run, yet its previously
stored entry at key `a|b|c|d` is overwritten (every field changes) by the
colliding upsert that the successful project `a` performs for its account
`(email "b|c", subject "d")`.  A failed query therefore does not shield a
project's stored entries when the pipe-concatenated keys collide. -/
theorem failed_project_entry_clobbered :
    (runProject queryCollide { ProjectId := "a|b", Name := "AB" }).Error ≠ none ∧
    findKey storeCollide (mkKey "a|b" "c" "d") =
      some { ProjectID := "a|b", Email := "c", UniqueId := "d", Status := "active" } ∧
    findKey (runPipeline outcomesCollide storeCollide).store (mkKey "a|b" "c" "d") =
      some { ProjectID := "a", Email := "b|c", UniqueId := "d", Status := "active" } := by
  decide

/-- C3 (amended): for a project whose every outcome this run failed, each of
its previously stored entries is unchanged after the full run — provided no
upsert of the run (necessarily one made for a different, successful project)
hits that entry's store key, which can only happen when the pipe-concatenated
keys of two distinct identity triples collide. -/
theorem failed_project_entries_unchanged
    (outcomes : List projectResult) (store0 : Store) (pf k : String)
    (acc : ServiceAccount)
    (hold : findKey store0 k = some acc) (hacc : acc.ProjectID = pf)
    (hfail : ∀ res ∈ outcomes, res.Proj.ProjectId = pf → res.Error ≠ none)
    (hnocollide : ∀ kv ∈ runWrites outcomes, kv.1 ≠ k)
    (hnd : NodupKeys store0) :
    findKey (runPipeline outcomes store0).store k = some acc := by
  rw [runPipeline_store outcomes store0 hnd, findKey_applyWrites]
  cases hll : lookupLast (runWrites outcomes) k with
  | some v =>
    exact absurd rfl (hnocollide (k, v) (lookupLast_mem _ k v hll))
  | none => exact hold

/-- Store of the C3 witness: one entry belonging to the failing project. -/
def storeFailW : Store :=
  [(mkKey "pf" "e" "s",
    { ProjectID := "pf", Email := "e", UniqueId := "s", Status := "active" })]

/-- Outcomes of the C3 witness: `pf` fails, `p1` succeeds with one account. -/
def outcomesFailW : List projectResult :=
  [runProject queryW { ProjectId := "pf", Name := "PF" },
   { Proj := { ProjectId := "p1", Name := "P1" },
     ServiceAccounts := [{ ProjectID := "", Email := "e2", UniqueId := "s2", Status := "" }],
     Error := none }]

theorem failed_project_entries_unchanged_witness :
    (findKey storeFailW (mkKey "pf" "e" "s") =
        some { ProjectID := "pf", Email := "e", UniqueId := "s", Status := "active" } ∧
      (∀ res ∈ outcomesFailW, res.Proj.ProjectId = "pf" → res.Error ≠ none) ∧
      (∀ kv ∈ runWrites outcomesFailW, kv.1 ≠ mkKey "pf" "e" "s") ∧
      NodupKeys storeFailW) ∧
    findKey (runPipeline outcomesFailW storeFailW).store (mkKey "pf" "e" "s") =
      some { ProjectID := "pf", Email := "e", UniqueId := "s", Status := "active" } :=
  ⟨⟨by decide, by decide, by decide, by decide⟩,
   failed_project_entries_unchanged outcomesFailW storeFailW "pf" (mkKey "pf" "e" "s")
     { ProjectID := "pf", Email := "e", UniqueId := "s", Status := "active" }
     (by decide) (by decide) (by decide) (by decide) (by decide)⟩

/-- C4: a stored entry for identity key `(p, e, sid)` with status `deleted`
that reappears among a successful outcome's returned accounts is upserted
with status forced to `active` when the reconciler processes that outcome,
and the store keeps exactly one binding for that key. -/
theorem resurrection_single_entry
    (s : RunState) (res : projectResult) (p e sid : String)
    (a old : ServiceAccount)
    (hok : res.Error = none) (hp : res.Proj.ProjectId = p)
    (ha : a ∈ res.ServiceAccounts) (hae : a.Email = e) (has : a.UniqueId = sid)
    (hold : findKey s.store (mkKey p e sid) = some old)
    (hdel : old.Status = "deleted")
    (hnd : NodupKeys s.store) :
    (∃ v, findKey (processOutcome s res).store (mkKey p e sid) = some v ∧
      v.Status = "active") ∧
    countKey (processOutcome s res).store (mkKey p e sid) = 1 := by
  have hwmem : (mkKey p e sid,
      ({ ProjectID := p, Email := e, UniqueId := sid, Status := "active" } : ServiceAccount)) ∈
      outcomeWrites res := by
    obtain ⟨proj, accs, err⟩ := res
    simp only at hok hp ha
    subst hok
    simp only [outcomeWrites]
    have := List.mem_map_of_mem (fun a2 =>
      (mkKey proj.ProjectId a2.Email a2.UniqueId,
       ({ ProjectID := proj.ProjectId, Email := a2.Email, UniqueId := a2.UniqueId,
          Status := "active" } : ServiceAccount))) ha
    simpa [hp, hae, has] using this
  have hnd2 : NodupKeys (processOutcome s res).store := by
    rw [processOutcome_store]
    exact nodupKeys_applyWrites _ _ hnd
  have hsome : ∃ v, findKey (processOutcome s res).store (mkKey p e sid) = some v ∧
      v.Status = "active" := by
    rw [processOutcome_store, findKey_applyWrites]
    cases hll : lookupLast (outcomeWrites res) (mkKey p e sid) with
    | some v =>
      exact ⟨v, rfl, outcomeWrites_active res (mkKey p e sid, v)
        (lookupLast_mem _ _ v hll)⟩
    | none =>
      have := lookupLast_isSome_of_mem _ _ _ hwmem
      rw [hll] at this
      simp at this
  refine ⟨hsome, ?_⟩
  obtain ⟨v, hv, _⟩ := hsome
  rw [countKey_nodup _ _ hnd2, hv]
  rfl

/-- Outcome of the C4 witness: project `p1` returns the account `(e1, s1)`
that the store below holds as `deleted`. -/
def resW : projectResult :=
  { Proj := { ProjectId := "p1", Name := "P1" },
    ServiceAccounts := [{ ProjectID := "", Email := "e1", UniqueId := "s1", Status := "" }],
    Error := none }

/-- Run state of the C4 witness: the store holds the entry as `deleted`. -/
def stateW : RunState :=
  { store := [(mkKey "p1" "e1" "s1",
      { ProjectID := "p1", Email := "e1", UniqueId := "s1", Status := "deleted" })],
    statuses := [], processed := [] }

theorem resurrection_single_entry_witness :
    (resW.Error = none ∧
      { ProjectID := "", Email := "e1", UniqueId := "s1", Status := "" } ∈
        resW.ServiceAccounts ∧
      findKey stateW.store (mkKey "p1" "e1" "s1") =
        some { ProjectID := "p1", Email := "e1", UniqueId := "s1", Status := "deleted" } ∧
      NodupKeys stateW.store) ∧
    (∃ v, findKey (processOutcome stateW resW).store (mkKey "p1" "e1" "s1") = some v ∧
      v.Status = "active") ∧
    countKey (processOutcome stateW resW).store (mkKey "p1" "e1" "s1") = 1 :=
  ⟨⟨by decide, by decide, by decide, by decide⟩,
   resurrection_single_entry stateW resW "p1" "e1" "s1"
     { ProjectID := "", Email := "e1", UniqueId := "s1", Status := "" }
     { ProjectID := "p1", Email := "e1", UniqueId := "s1", Status := "deleted" }
     (by decide) (by decide) (by decide) (by decide) (by decide) (by decide) (by decide)
     (by decide)⟩

/-- A write list is consistent when any two writes to the same key carry the
same value — the case whenever field values contain no pipe, since then the
key determines the identity triple and every upsert value is the triple with
status `"active"`. -/
def consistentWrites (l : List (String × ServiceAccount)) : Prop :=
  ∀ kv1 ∈ l, ∀ kv2 ∈ l, kv1.1 = kv2.1 → kv1.2 = kv2.2

instance (l : List (String × ServiceAccount)) : Decidable (consistentWrites l) := by
  unfold consistentWrites
  infer_instance

theorem lookupLast_perm_consistent (l1 l2 : List (String × ServiceAccount))
    (k : String) (hperm : l1.Perm l2) (hcons : consistentWrites l2) :
    lookupLast l1 k = lookupLast l2 k := by
  cases h1 : lookupLast l1 k with
  | some v =>
    have hm1 : (k, v) ∈ l2 := hperm.mem_iff.mp (lookupLast_mem l1 k v h1)
    have hs2 := lookupLast_isSome_of_mem l2 k v hm1
    cases h2 : lookupLast l2 k with
    | some v2 =>
      have hm2 := lookupLast_mem l2 k v2 h2
      exact congrArg some (hcons (k, v) hm1 (k, v2) hm2 rfl)
    | none => rw [h2] at hs2; simp at hs2
  | none =>
    have hno : k ∉ l1.map Prod.fst := (lookupLast_eq_none_iff l1 k).mp h1
    have hno2 : k ∉ l2.map Prod.fst := fun hm =>
      hno ((hperm.map Prod.fst).mem_iff.mpr hm)
    exact ((lookupLast_eq_none_iff l2 k).mpr hno2).symm

/-- Directory Client of the idempotence counterexample: both projects
succeed every run with fixed responses whose upserts collide on the key
`a|b|c|d` with different values. -/
def queryIdem : DirectoryQuery := fun pid =>
  if pid = "a" then
    Except.ok [{ ProjectID := "", Email := "b|c", UniqueId := "d", Status := "" }]
  else if pid = "a|b" then
    Except.ok [{ ProjectID := "", Email := "c", UniqueId := "d", Status := "" }]
  else Except.error "denied"

/-- Project set of the idempotence counterexample. -/
def projectsIdem : List Project :=
  [{ ProjectId := "a", Name := "A" }, { ProjectId := "a|b", Name := "AB" }]

/-- First run: outcomes arrive in dispatch order. -/
def firstRunIdem : RunState := runPipeline (projectsIdem.map (runProject queryIdem)) []

/-- Second run over the first run's store: the same outcomes (identical
Directory Client responses) arrive in the opposite order. -/
def secondRunIdem : RunState :=
  runPipeline ((projectsIdem.map (runProject queryIdem)).reverse) firstRunIdem.store

/-- C5 counterexample: running the pipeline twice over the same project set
with identical Directory Client responses does not always reproduce the
store: with colliding keys the entry at `a|b|c|d` depends on which project's
outcome was reconciled last, and the second run (a legitimate arrival order,
being a permutation of the same outcomes) flips it. -/
theorem second_run_store_differs :
    ((projectsIdem.map (runProject queryIdem)).reverse).Perm
        (projectsIdem.map (runProject queryIdem)) ∧
    findKey secondRunIdem.store (mkKey "a" "b|c" "d") ≠
      findKey firstRunIdem.store (mkKey "a" "b|c" "d") :=
  ⟨List.reverse_perm _, by decide⟩

/-- C5 (amended): when no two outcomes write the same store key with
different values (in particular whenever field values contain no pipe), a
second run over the same project set with identical Directory Client
responses — in any arrival order — leaves the Record Store extensionally
identical to the first run's store, every key upserted in the second run
holds an `active` entry, and the second run marks nothing `deleted` that was
not already `deleted` after the first. -/
theorem pipeline_idempotent
    (projects : List Project) (query : DirectoryQuery)
    (o1 o2 : List projectResult) (store0 : Store)
    (h1 : o1.Perm (projects.map (runProject query)))
    (h2 : o2.Perm (projects.map (runProject query)))
    (hnd : NodupKeys store0)
    (hcons : consistentWrites (runWrites (projects.map (runProject query)))) :
    (∀ k, findKey (runPipeline o2 (runPipeline o1 store0).store).store k =
        findKey (runPipeline o1 store0).store k) ∧
    (∀ kv ∈ runWrites o2, ∃ v,
        findKey (runPipeline o2 (runPipeline o1 store0).store).store kv.1 = some v ∧
        v.Status = "active") ∧
    (∀ k v, findKey (runPipeline o2 (runPipeline o1 store0).store).store k = some v →
        v.Status = "deleted" → findKey (runPipeline o1 store0).store k = some v) := by
  have hnd1 : NodupKeys (runPipeline o1 store0).store := by
    rw [runPipeline_store o1 store0 hnd]
    exact nodupKeys_applyWrites _ _ hnd
  have hs1 : (runPipeline o1 store0).store = applyWrites store0 (runWrites o1) :=
    runPipeline_store o1 store0 hnd
  have hs2 : (runPipeline o2 (runPipeline o1 store0).store).store =
      applyWrites (runPipeline o1 store0).store (runWrites o2) :=
    runPipeline_store o2 _ hnd1
  have hl1 : ∀ k, lookupLast (runWrites o1) k =
      lookupLast (runWrites (projects.map (runProject query))) k :=
    fun k => lookupLast_perm_consistent _ _ k (runWrites_perm h1) hcons
  have hl2 : ∀ k, lookupLast (runWrites o2) k =
      lookupLast (runWrites (projects.map (runProject query))) k :=
    fun k => lookupLast_perm_consistent _ _ k (runWrites_perm h2) hcons
  have hmain : ∀ k, findKey (runPipeline o2 (runPipeline o1 store0).store).store k =
      findKey (runPipeline o1 store0).store k := by
    intro k
    rw [hs2, findKey_applyWrites, hl2 k]
    cases hc : lookupLast (runWrites (projects.map (runProject query))) k with
    | some v =>
      rw [hs1, findKey_applyWrites, hl1 k, hc]
    | none => rfl
  refine ⟨hmain, ?_, ?_⟩
  · intro kv hkv
    have hsme := lookupLast_isSome_of_mem (runWrites o2) kv.1 kv.2 hkv
    cases hll : lookupLast (runWrites o2) kv.1 with
    | some v =>
      refine ⟨v, ?_, ?_⟩
      · rw [hs2, findKey_applyWrites, hll]
      · exact runWrites_active o2 (kv.1, v) (lookupLast_mem _ _ v hll)
    | none => rw [hll] at hsme; simp at hsme
  · intro k v hfind _
    rw [← hmain k]
    exact hfind

/-- Project set of the idempotence witness. -/
def projectsIdemW : List Project := [{ ProjectId := "p1", Name := "P1" }]

/-- Directory Client of the idempotence witness: one account, no pipes. -/
def queryIdemW : DirectoryQuery := fun _ =>
  Except.ok [{ ProjectID := "", Email := "e1", UniqueId := "s1", Status := "" }]

/-- Outcomes of the idempotence witness (dispatch order, both runs). -/
def outcomesIdemW : List projectResult := projectsIdemW.map (runProject queryIdemW)

theorem pipeline_idempotent_witness :
    (outcomesIdemW.Perm (projectsIdemW.map (runProject queryIdemW)) ∧
      NodupKeys ([] : Store) ∧
      consistentWrites (runWrites (projectsIdemW.map (runProject queryIdemW)))) ∧
    findKey (runPipeline outcomesIdemW (runPipeline outcomesIdemW []).store).store
        (mkKey "p1" "e1" "s1") =
      findKey (runPipeline outcomesIdemW []).store (mkKey "p1" "e1" "s1") :=
  ⟨⟨List.Perm.refl _, by decide, by decide⟩,
   (pipeline_idempotent projectsIdemW queryIdemW outcomesIdemW outcomesIdemW []
     (List.Perm.refl _) (List.Perm.refl _) (by decide) (by decide)).1 (mkKey "p1" "e1" "s1")⟩

/-- Some occurrence of `e1` sits strictly before some occurrence of `e2` in
the trace `t`. -/
def precedes {α : Type} (t : List α) (e1 e2 : α) : Prop :=
  ∃ i : Fin t.length, ∃ j : Fin t.length, i.val < j.val ∧ t.get i = e1 ∧ t.get j = e2

instance {α : Type} [DecidableEq α] (t : List α) (e1 e2 : α) :
    Decidable (precedes t e1 e2) := by
  unfold precedes
  infer_instance

theorem precedes_head {α : Type} (a : α) (t : List α) (e : α) (he : e ∈ t) :
    precedes (a :: t) a e := by
  obtain ⟨n, hn⟩ := List.mem_iff_get.mp he
  exact ⟨⟨0, Nat.succ_pos _⟩, ⟨n.val + 1, Nat.succ_lt_succ n.isLt⟩,
    Nat.succ_pos _, rfl, hn⟩

/-- Events of one worker goroutine (src/main.go lines 399-411). -/
inductive WorkerEvent where
  | acquirePermit : WorkerEvent
  | externalQuery (pid : String) : WorkerEvent
  | sendOutcome (res : projectResult) : WorkerEvent
  | releasePermit : WorkerEvent
deriving DecidableEq, Repr

/-- Program-order trace of one worker for project `p`: `sem <- struct{}{}`
(line 401), the external query (line 404), `results <- res` on the
unbuffered channel (line 410), and only then the deferred `<-sem`
(line 402, runs when the function returns, after the send completes). -/
def workerTrace (query : DirectoryQuery) (p : Project) : List WorkerEvent :=
  [WorkerEvent.acquirePermit, WorkerEvent.externalQuery p.ProjectId,
   WorkerEvent.sendOutcome (runProject query p), WorkerEvent.releasePermit]

/-- C7 counterexample: in the worker's program order the permit release
(deferred `<-sem`) comes strictly after the send of the outcome on the
unbuffered `results` channel, never before it — so the admission gate also
bounds the reporting of outcomes, contradicting the claim that the permit is
released before the outcome becomes visible. -/
theorem permit_not_released_before_send :
    ¬ precedes (workerTrace queryW { ProjectId := "p1", Name := "P1" })
        WorkerEvent.releasePermit
        (WorkerEvent.sendOutcome (runProject queryW { ProjectId := "p1", Name := "P1" })) ∧
    precedes (workerTrace queryW { ProjectId := "p1", Name := "P1" })
        (WorkerEvent.sendOutcome (runProject queryW { ProjectId := "p1", Name := "P1" }))
        WorkerEvent.releasePermit := by
  decide

/-- C7 (amended): every worker acquires its admission-gate permit before its
external query, and releases it only after its outcome has been sent on the
unbuffered results channel — the gate of size maxConcurrent bounds execution
AND the handoff of the outcome (the handoff blocks while holding the
permit), not execution alone. -/
theorem permit_held_through_handoff (query : DirectoryQuery) (p : Project) :
    precedes (workerTrace query p) WorkerEvent.acquirePermit
        (WorkerEvent.externalQuery p.ProjectId) ∧
    precedes (workerTrace query p) (WorkerEvent.externalQuery p.ProjectId)
        (WorkerEvent.sendOutcome (runProject query p)) ∧
    precedes (workerTrace query p) (WorkerEvent.sendOutcome (runProject query p))
        WorkerEvent.releasePermit := by
  have h0 : (0:Nat) < (workerTrace query p).length := by show (0:Nat) < 4; decide
  have h1 : (1:Nat) < (workerTrace query p).length := by show (1:Nat) < 4; decide
  have h2 : (2:Nat) < (workerTrace query p).length := by show (2:Nat) < 4; decide
  have h3 : (3:Nat) < (workerTrace query p).length := by show (3:Nat) < 4; decide
  exact ⟨⟨⟨0, h0⟩, ⟨1, h1⟩, Nat.zero_lt_one, rfl, rfl⟩,
    ⟨⟨1, h1⟩, ⟨2, h2⟩, Nat.lt_succ_self 1, rfl, rfl⟩,
    ⟨⟨2, h2⟩, ⟨3, h3⟩, Nat.lt_succ_self 2, rfl, rfl⟩⟩

theorem permit_held_through_handoff_witness :
    precedes (workerTrace queryW { ProjectId := "p2", Name := "P2" })
      (WorkerEvent.sendOutcome (runProject queryW { ProjectId := "p2", Name := "P2" }))
      WorkerEvent.releasePermit :=
  (permit_held_through_handoff queryW { ProjectId := "p2", Name := "P2" }).2.2

/-- Events of one iteration of the consumer loop (src/main.go lines
421-442), inside the mutex-guarded section. -/
inductive ReconcileEvent where
  | progressSignal : ReconcileEvent
  | statusAppend (pa : ProjectAccess) : ReconcileEvent
  | upsertWrite (key : String) (acc : ServiceAccount) : ReconcileEvent
deriving DecidableEq, Repr

/-- Program-order trace of the reconciler's processing of one outcome:
`progress <- 1` first (line 423), then the Access Status append (line 425 or
430), then — on success — the upserts in account order (lines 436-439). -/
def outcomeTrace (res : projectResult) : List ReconcileEvent :=
  ReconcileEvent.progressSignal ::
    ReconcileEvent.statusAppend (statusOf res) ::
      (outcomeWrites res).map (fun kv => ReconcileEvent.upsertWrite kv.1 kv.2)

/-- C6 counterexample: for an outcome of the failing project `p2` the
reconciler's critical section emits the progress signal strictly before it
appends the Access Status Record, so the "unit completed" signal fires
before the outcome's reconciliation completes, contradicting the claim. -/
theorem progress_signal_fires_before_append :
    ReconcileEvent.statusAppend { ProjectID := "p2", HasAccess := "no" } ∈
      outcomeTrace (runProject queryW { ProjectId := "p2", Name := "P2" }) ∧
    ¬ precedes (outcomeTrace (runProject queryW { ProjectId := "p2", Name := "P2" }))
        (ReconcileEvent.statusAppend { ProjectID := "p2", HasAccess := "no" })
        ReconcileEvent.progressSignal ∧
    precedes (outcomeTrace (runProject queryW { ProjectId := "p2", Name := "P2" }))
        ReconcileEvent.progressSignal
        (ReconcileEvent.statusAppend { ProjectID := "p2", HasAccess := "no" }) := by
  decide

/-- C6 (amended): the progress signal is fed by the Reconciler inside the
outcome's mutex-guarded critical section, but at its start: it precedes the
outcome's Access Status append and every upsert of that outcome, rather than
firing after the outcome's reconciliation completes. -/
theorem progress_signal_starts_critical_section (res : projectResult) :
    precedes (outcomeTrace res) ReconcileEvent.progressSignal
      (ReconcileEvent.statusAppend (statusOf res)) ∧
    ∀ e ∈ outcomeTrace res, e ≠ ReconcileEvent.progressSignal →
      precedes (outcomeTrace res) ReconcileEvent.progressSignal e := by
  constructor
  · exact precedes_head _ _ _ (List.mem_cons_self _ _)
  · intro e he hne
    have he2 : e ∈ ReconcileEvent.statusAppend (statusOf res) ::
        (outcomeWrites res).map (fun kv => ReconcileEvent.upsertWrite kv.1 kv.2) := by
      rcases List.mem_cons.mp he with h | h
      · exact absurd h hne
      · exact h
    exact precedes_head _ _ _ he2

theorem progress_signal_starts_critical_section_witness :
    (ReconcileEvent.statusAppend { ProjectID := "p1", HasAccess := "yes" } ∈
        outcomeTrace (runProject queryW { ProjectId := "p1", Name := "P1" }) ∧
      ReconcileEvent.statusAppend
          ({ ProjectID := "p1", HasAccess := "yes" } : ProjectAccess) ≠
        ReconcileEvent.progressSignal) ∧
    precedes (outcomeTrace (runProject queryW { ProjectId := "p1", Name := "P1" }))
      ReconcileEvent.progressSignal
      (ReconcileEvent.statusAppend { ProjectID := "p1", HasAccess := "yes" }) :=
  ⟨⟨by decide, by decide⟩,
   (progress_signal_starts_critical_section
       (runProject queryW { ProjectId := "p1", Name := "P1" })).2
     (ReconcileEvent.statusAppend { ProjectID := "p1", HasAccess := "yes" })
     (by decide) (by decide)⟩

/-- Loop body of `readExistingCSV` for one parsed CSV row (src/main.go lines
314-327, after the header skip): rows with at least 4 columns are inserted
at key `row0|row1|row2`; shorter rows leave the map unchanged. -/
def csvRow (accounts : Store) (row : List String) : Store :=
  if 4 ≤ row.length then
    insertKey accounts (mkKey (row.getD 0 "") (row.getD 1 "") (row.getD 2 ""))
      { ProjectID := row.getD 0 "", Email := row.getD 1 "", UniqueId := row.getD 2 "",
        Status := row.getD 3 "" }
  else accounts

/-- Go `readExistingCSV` (src/main.go lines 305-330) over the parsed CSV
rows: skip the header row (index 0), then fold `csvRow` over the rest. -/
def readExistingCSV (records : List (List String)) : Store :=
  (records.drop 1).foldl csvRow []

/-- Loop body of `readExistingCSVForAnalysis` for one row (src/main.go lines
344-354): rows with fewer than 4 columns are skipped; the rest are keyed by
the subject-id column `row2`. -/
def csvRowAnalysis (accounts : Store) (row : List String) : Store :=
  if row.length < 4 then accounts
  else
    insertKey accounts (row.getD 2 "")
      { ProjectID := row.getD 0 "", Email := row.getD 1 "", UniqueId := row.getD 2 "",
        Status := row.getD 3 "" }

/-- Go `readExistingCSVForAnalysis` (src/main.go lines 332-357) over the
parsed CSV rows. -/
def readExistingCSVForAnalysis (records : List (List String)) : Store :=
  (records.drop 1).foldl csvRowAnalysis []

theorem foldl_csvRow_filter (l : List (List String)) (st : Store) :
    l.foldl csvRow st = (l.filter (fun r => 4 ≤ r.length)).foldl csvRow st := by
  induction l generalizing st with
  | nil => rfl
  | cons hd tl ih =>
    by_cases hl : 4 ≤ hd.length
    · rw [List.foldl_cons, List.filter_cons, if_pos (by simpa using hl), List.foldl_cons]
      exact ih (csvRow st hd)
    · rw [List.foldl_cons, List.filter_cons, if_neg (by simpa using hl)]
      have hstep : csvRow st hd = st := by unfold csvRow; rw [if_neg hl]
      rw [hstep]
      exact ih st
  
theorem foldl_csvRowAnalysis_filter (l : List (List String)) (st : Store) :
    l.foldl csvRowAnalysis st =
      (l.filter (fun r => 4 ≤ r.length)).foldl csvRowAnalysis st := by
  induction l generalizing st with
  | nil => rfl
  | cons hd tl ih =>
    by_cases hl : 4 ≤ hd.length
    · rw [List.foldl_cons, List.filter_cons, if_pos (by simpa using hl), List.foldl_cons]
      exact ih (csvRowAnalysis st hd)
    · rw [List.foldl_cons, List.filter_cons, if_neg (by simpa using hl)]
      have hstep : csvRowAnalysis st hd = st := by
        unfold csvRowAnalysis
        rw [if_pos (Nat.lt_of_not_le hl)]
      rw [hstep]
      exact ih st

theorem findKey_csvRow_isSome (st : Store) (row : List String) (k : String)
    (h : (findKey st k).isSome) : (findKey (csvRow st row) k).isSome := by
  unfold csvRow
  by_cases hl : 4 ≤ row.length
  · rw [if_pos hl, findKey_insertKey]
    by_cases hk : mkKey (row.getD 0 "") (row.getD 1 "") (row.getD 2 "") = k
    · rw [if_pos hk]
      rfl
    · rw [if_neg hk]
      exact h
  · rw [if_neg hl]
    exact h

theorem findKey_csvRowAnalysis_isSome (st : Store) (row : List String) (k : String)
    (h : (findKey st k).isSome) : (findKey (csvRowAnalysis st row) k).isSome := by
  unfold csvRowAnalysis
  by_cases hl : row.length < 4
  · rw [if_pos hl]
    exact h
  · rw [if_neg hl, findKey_insertKey]
    by_cases hk : row.getD 2 "" = k
    · rw [if_pos hk]
      rfl
    · rw [if_neg hk]
      exact h

theorem foldl_csvRow_isSome (l : List (List String)) (st : Store) (k : String)
    (h : (findKey st k).isSome) : (findKey (l.foldl csvRow st) k).isSome := by
  induction l generalizing st with
  | nil => exact h
  | cons hd tl ih => exact ih (csvRow st hd) (findKey_csvRow_isSome st hd k h)

theorem foldl_csvRowAnalysis_isSome (l : List (List String)) (st : Store) (k : String)
    (h : (findKey st k).isSome) : (findKey (l.foldl csvRowAnalysis st) k).isSome := by
  induction l generalizing st with
  | nil => exact h
  | cons hd tl ih =>
    exact ih (csvRowAnalysis st hd) (findKey_csvRowAnalysis_isSome st hd k h)

theorem foldl_csvRow_row_isSome (l : List (List String)) (st : Store)
    (row : List String) (hrow : row ∈ l) (hlen : 4 ≤ row.length) :
    (findKey (l.foldl csvRow st)
      (mkKey (row.getD 0 "") (row.getD 1 "") (row.getD 2 ""))).isSome := by
  induction l generalizing st with
  | nil => simp at hrow
  | cons hd tl ih =>
    rcases List.mem_cons.mp hrow with heq | hmem
    · subst heq
      rw [List.foldl_cons]
      apply foldl_csvRow_isSome
      unfold csvRow
      rw [if_pos hlen, findKey_insertKey_self]
      rfl
    · rw [List.foldl_cons]
      exact ih (csvRow st hd) hmem

theorem foldl_csvRowAnalysis_row_isSome (l : List (List String)) (st : Store)
    (row : List String) (hrow : row ∈ l) (hlen : 4 ≤ row.length) :
    (findKey (l.foldl csvRowAnalysis st) (row.getD 2 "")).isSome := by
  induction l generalizing st with
  | nil => simp at hrow
  | cons hd tl ih =>
    rcases List.mem_cons.mp hrow with heq | hmem
    · subst heq
      rw [List.foldl_cons]
      apply foldl_csvRowAnalysis_isSome
      unfold csvRowAnalysis
      rw [if_neg (Nat.not_lt.mpr hlen), findKey_insertKey_self]
      rfl
    · rw [List.foldl_cons]
      exact ih (csvRowAnalysis st hd) hmem

/-- C8: both CSV loaders silently skip every row with fewer than 4 columns
and keep loading (the loaded store is exactly the store loaded from the
well-formed rows alone), and every data row with at least 4 columns yields
an Account Entry at its key; a skipped row never aborts the load. -/
theorem malformed_rows_skipped
    (records : List (List String)) (row : List String)
    (hrow : row ∈ records.drop 1) (hlen : 4 ≤ row.length) :
    readExistingCSV records =
      readExistingCSV
        (records.take 1 ++ (records.drop 1).filter (fun r => 4 ≤ r.length)) ∧
    readExistingCSVForAnalysis records =
      readExistingCSVForAnalysis
        (records.take 1 ++ (records.drop 1).filter (fun r => 4 ≤ r.length)) ∧
    (findKey (readExistingCSV records)
      (mkKey (row.getD 0 "") (row.getD 1 "") (row.getD 2 ""))).isSome ∧
    (findKey (readExistingCSVForAnalysis records) (row.getD 2 "")).isSome := by
  cases records with
  | nil => simp at hrow
  | cons hdr rows =>
    have hdrop : ((hdr :: rows).take 1 ++
        ((hdr :: rows).drop 1).filter (fun r => 4 ≤ r.length)).drop 1 =
        rows.filter (fun r => 4 ≤ r.length) := by
      simp
    simp only [List.drop_succ_cons, List.drop_zero] at hrow
    refine ⟨?_, ?_, ?_, ?_⟩
    · unfold readExistingCSV
      rw [hdrop]
      simp only [List.drop_succ_cons, List.drop_zero]
      exact foldl_csvRow_filter rows []
    · unfold readExistingCSVForAnalysis
      rw [hdrop]
      simp only [List.drop_succ_cons, List.drop_zero]
      exact foldl_csvRowAnalysis_filter rows []
    · unfold readExistingCSV
      simp only [List.drop_succ_cons, List.drop_zero]
      exact foldl_csvRow_row_isSome rows [] row hrow hlen
    · unfold readExistingCSVForAnalysis
      simp only [List.drop_succ_cons, List.drop_zero]
      exact foldl_csvRowAnalysis_row_isSome rows [] row hrow hlen

/-- Parsed CSV rows of the C8 witness: a header, a well-formed row, a
malformed 1-column row, and another well-formed row. -/
def recordsW : List (List String) :=
  [["ProjectID", "Email", "SubjectID", "Status"],
   ["p1", "e1", "s1", "active"],
   ["bad"],
   ["p2", "e2", "s2", "deleted"]]

theorem malformed_rows_skipped_witness :
    (["p2", "e2", "s2", "deleted"] ∈ recordsW.drop 1 ∧
      4 ≤ (["p2", "e2", "s2", "deleted"] : List String).length) ∧
    (findKey (readExistingCSV recordsW)
      (mkKey "p2" "e2" "s2")).isSome ∧
    (findKey (readExistingCSVForAnalysis recordsW) "s2").isSome :=
  ⟨⟨by decide, by decide⟩,
   (malformed_rows_skipped recordsW ["p2", "e2", "s2", "deleted"]
     (by decide) (by decide)).2.2.1,
   (malformed_rows_skipped recordsW ["p2", "e2", "s2", "deleted"]
     (by decide) (by decide)).2.2.2⟩

/-- Go `strings.Split(input, ",")` (src/main.go line 213) at the character
level: split around every comma, keeping empty fields (an empty input yields
one empty field, as in Go). -/
def splitChars (sep : Char) : List Char → List (List Char)
  | [] => [[]]
  | c :: rest =>
    if c = sep then [] :: splitChars sep rest
    else
      match splitChars sep rest with
      | [] => [[c]]
      | g :: gs => (c :: g) :: gs

/-- Go `strings.Split(s, ",")` on strings. -/
def goSplitComma (s : String) : List String :=
  (splitChars ',' s.toList).map String.mk

/-- Latin-1 fragment of Go `unicode.IsSpace`: ASCII space, tab, newline,
vertical tab, form feed, carriage return, next line (U+0085) and no-break
space (U+00A0); wider Unicode space classes do not occur in subject ids. -/
def goIsSpace (c : Char) : Bool :=
  c = ' ' || c = '\t' || c = '\n' || c = Char.ofNat 11 || c = Char.ofNat 12 ||
    c = '\r' || c = Char.ofNat 133 || c = Char.ofNat 160

/-- Go `strings.TrimSpace` (src/main.go line 218): strip leading and
trailing white space. -/
def trimSpace (s : String) : String :=
  String.mk (((s.toList.dropWhile goIsSpace).reverse.dropWhile goIsSpace).reverse)

/-- Go loop `for _, acc := range accounts` with `break` on the first match
(src/main.go lines 224-230), in the store's iteration order. -/
def findAccountBySubject (accounts : Store) (subjectID : String) :
    Option ServiceAccount :=
  match accounts with
  | [] => none
  | (_, acc) :: rest =>
    if acc.UniqueId = subjectID then some acc else findAccountBySubject rest subjectID

/-- Loop body of `bulkSubjectIDLookup` for one raw token (src/main.go lines
217-234): trim, skip when empty, else append to found on a subject-id match
and to missing otherwise. -/
def bulkStep (accounts : Store) (fm : List ServiceAccount × List String)
    (rawID : String) : List ServiceAccount × List String :=
  if trimSpace rawID = "" then fm
  else
    match findAccountBySubject accounts (trimSpace rawID) with
    | some acc => (fm.1 ++ [acc], fm.2)
    | none => (fm.1, fm.2 ++ [trimSpace rawID])

/-- Go `bulkSubjectIDLookup` (src/main.go lines 212-237). -/
def bulkSubjectIDLookup (accounts : Store) (input : String) :
    List ServiceAccount × List String :=
  (goSplitComma input).foldl (bulkStep accounts) ([], [])

theorem bulk_foldl_eq (accounts : Store) (ts : List String)
    (f : List ServiceAccount) (m : List String) :
    ts.foldl (bulkStep accounts) (f, m) =
      (f ++ ((ts.map trimSpace).filter (fun t => t ≠ "")).filterMap
          (findAccountBySubject accounts),
       m ++ ((ts.map trimSpace).filter (fun t => t ≠ "")).filter
          (fun t => (findAccountBySubject accounts t).isNone)) := by
  induction ts generalizing f m with
  | nil => simp
  | cons t ts ih =>
    rw [List.foldl_cons]
    by_cases ht : trimSpace t = ""
    · have hstep : bulkStep accounts (f, m) t = (f, m) := by
        unfold bulkStep
        rw [if_pos ht]
      rw [hstep, ih f m]
      simp [ht]
    · cases hfa : findAccountBySubject accounts (trimSpace t) with
      | some acc =>
        have hstep : bulkStep accounts (f, m) t = (f ++ [acc], m) := by
          unfold bulkStep
          rw [if_neg ht, hfa]
        rw [hstep, ih (f ++ [acc]) m]
        simp [ht, hfa, List.append_assoc]
      | none =>
        have hstep : bulkStep accounts (f, m) t = (f, m ++ [trimSpace t]) := by
          unfold bulkStep
          rw [if_neg ht, hfa]
        rw [hstep, ih f (m ++ [trimSpace t])]
        simp [ht, hfa, List.append_assoc]

/-- Store of the bulk-lookup scenario: subject ids 111 and 222. -/
def accountsBulkW : Store :=
  [("k1", { ProjectID := "p", Email := "e1", UniqueId := "111", Status := "active" }),
   ("k2", { ProjectID := "p", Email := "e2", UniqueId := "222", Status := "active" })]

/-- C9: the bulk subject-id lookup splits its input on commas, trims each
token, skips empty tokens, and partitions the remaining ids into found (the
first stored account carrying that subject id) and missing (ids no stored
account carries); in particular, over a store holding subject ids 111 and
222, the input "111,333, 222" finds exactly those two stored accounts and
reports missing = ["333"]. -/
theorem bulk_lookup_partitions (accounts : Store) (input : String) :
    bulkSubjectIDLookup accounts input =
      ((((goSplitComma input).map trimSpace).filter (fun t => t ≠ "")).filterMap
          (findAccountBySubject accounts),
       (((goSplitComma input).map trimSpace).filter (fun t => t ≠ "")).filter
          (fun t => (findAccountBySubject accounts t).isNone)) ∧
    bulkSubjectIDLookup accountsBulkW "111,333, 222" =
      ([{ ProjectID := "p", Email := "e1", UniqueId := "111", Status := "active" },
        { ProjectID := "p", Email := "e2", UniqueId := "222", Status := "active" }],
       ["333"]) := by
  constructor
  · unfold bulkSubjectIDLookup
    rw [bulk_foldl_eq accounts (goSplitComma input) [] []]
    simp
  · decide
